import Mathlib

/-!
Shallow embedding of the `gol-rs` source (`src/main.rs`): a toroidal
Game-of-Life board with aging dead cells and a differential terminal
renderer, together with proofs about the claims of its specification.

Machine integers are modelled over `Int`/`Nat`:
`wrap32` is two's-complement wrapping into the `i32` range (Rust release
semantics for `as i32` casts and overflowing arithmetic), `usizeOfI32`
is the `as usize` cast of an `i32` value (sign extension followed by
reinterpretation).  Fallible lookups (`Vec::get` followed by `unwrap`)
are modelled with `Option`.
-/

namespace GolRs

/-- `enum CellState { Alive, Dead(u8) }`.  The `u8` payload is a `Nat`
that is `≤ 255` in every representable state. -/
inductive CellState where
  | Alive : CellState
  | Dead : Nat → CellState
deriving DecidableEq, Repr

/-- `impl Default for CellState`: `CellState::Dead(u8::MAX)`. -/
def CellState.stateDefault : CellState := CellState.Dead 255

/-- `struct Cell { current: CellState, next: CellState }`. -/
structure Cell where
  current : CellState
  next : CellState
deriving DecidableEq, Repr

/-- `#[derive(Default)]` for `Cell`: both fields take the `CellState` default. -/
def Cell.cellDefault : Cell := ⟨CellState.stateDefault, CellState.stateDefault⟩

/-- `struct Board { cells: Vec<Cell>, width: usize, height: usize }`. -/
structure Board where
  cells : List Cell
  width : Nat
  height : Nat
deriving Repr, DecidableEq

/-- `Board::from_shape`: allocates `width * height` default cells. -/
def Board.from_shape (width height : Nat) : Board :=
  ⟨List.replicate (width * height) Cell.cellDefault, width, height⟩

/-- Two's-complement wrap of an integer into the `i32` range: models
Rust `as i32` casts and wrapping `i32` arithmetic. -/
def wrap32 (z : Int) : Int := (z + 2 ^ 31) % 2 ^ 32 - 2 ^ 31

/-- The Rust `expr as usize` cast of an `i32` value: sign-extend to 64
bits and reinterpret as unsigned. -/
def usizeOfI32 (z : Int) : Nat := (z % 2 ^ 64).toNat

/-- `Board::index_by_position`: Rust `%` on `i32` is truncating
(`Int.tmod`); the final value is cast `as usize`. -/
def Board.index_by_position (b : Board) (x y : Int) : Nat :=
  let board_width := wrap32 (b.width : Int)
  let board_height := wrap32 (b.height : Int)
  usizeOfI32 (wrap32 (wrap32 (board_width * (Int.tmod (wrap32 (y + board_height)) board_height)) +
    Int.tmod (wrap32 (x + board_width)) board_width))

/-- The eight Moore-neighborhood shifts, in the order the source's two
nested loops visit them (`x_shift` outer, `y_shift` inner, `(0,0)` skipped). -/
def shifts : List (Int × Int) :=
  [(-1, -1), (-1, 0), (-1, 1), (0, -1), (0, 1), (1, -1), (1, 0), (1, 1)]

/-- `Board::count_cells_around_position`: each neighbor is resolved with
`index_by_position` and looked up with `.get(..).unwrap()`, modelled by
`Option`. -/
def Board.count_cells_around_position (b : Board) (x y : Int) (what_state : CellState) :
    Option Nat :=
  shifts.foldlM (fun counter s => do
    let cell ← b.cells.get? (b.index_by_position (x + s.1) (y + s.2))
    pure (if cell.current = what_state then counter + 1 else counter)) 0

/-- The per-cell transition of `compute_one_step` phase 1: the `match` on
`cell.current` that assigns `cell.next`. -/
def lifeRule (current : CellState) (alive_around : Nat) : CellState :=
  match current with
  | CellState.Alive =>
    match alive_around with
    | 2 => CellState.Alive
    | 3 => CellState.Alive
    | _ => CellState.Dead 1
  | CellState.Dead cycles =>
    if alive_around = 3 then CellState.Alive
    else CellState.Dead (match cycles with
      | 255 => 255
      | _ => cycles + 1)

/-- The positions `(x_pos, y_pos)` visited by `compute_one_step`'s nested
loops, `x_pos` outer and `y_pos` inner. -/
def stepPositions (w h : Nat) : List (Nat × Nat) :=
  (List.range w).flatMap (fun x => (List.range h).map (fun y => (x, y)))

/-- One phase-1 iteration of `compute_one_step`: count the live
neighbors, then write the cell's `next` field in place. -/
def Board.phase1At (b : Board) (p : Nat × Nat) : Option Board := do
  let alive_around ← b.count_cells_around_position (p.1 : Int) (p.2 : Int) CellState.Alive
  let index := b.index_by_position (p.1 : Int) (p.2 : Int)
  let cell ← b.cells.get? index
  pure { b with cells := b.cells.set index { cell with next := lifeRule cell.current alive_around } }

/-- `Board::compute_one_step`: phase 1 computes every `next` field in
loop order; phase 2 swaps `current` and `next` in every cell. -/
def Board.compute_one_step (b : Board) : Option Board := do
  let b1 ← (stepPositions b.width b.height).foldlM Board.phase1At b
  pure { b1 with cells := b1.cells.map (fun c => ⟨c.next, c.current⟩) }

/-- Modelled from the spec: the random generator behind `rand::Rng` is an
external collaborator; it is a stream of uniform samples in `[0, 1)`,
one per cell. -/
structure RandomGen where
  sample : Nat → ℚ

/-- Modelled from the spec: `generator.gen_bool(probability)` draws one
Bernoulli(`probability`) sample, i.e. compares a uniform sample with the
probability. -/
def genBool (probability : ℚ) (u : ℚ) : Bool := u < probability

/-- A concrete valid generator: every sample is `1/2`. -/
def halfGen : RandomGen := ⟨fun _ => 1 / 2⟩

/-- A concrete generator whose samples are all `0`, for kernel-evaluated
witnesses. -/
def zeroGen : RandomGen := ⟨fun _ => 0⟩

/-- The loop body of `Board::randomize`, with the running cell index. -/
def randomizeGo (probability : ℚ) (sample : Nat → ℚ) : Nat → List Cell → List Cell
  | _, [] => []
  | i, c :: rest =>
    (if genBool probability (sample i) then { c with current := CellState.Alive } else c) ::
      randomizeGo probability sample (i + 1) rest

/-- `Board::randomize`: every cell is independently set to `Alive` on a
successful draw, otherwise left unchanged. -/
def Board.randomize (b : Board) (probability : ℚ) (generator : RandomGen) : Board :=
  { b with cells := randomizeGo probability generator.sample 0 b.cells }

/-- The dead-cell intensity computation in `main`'s render loop:
`if cycles as u16 * 20 > 255 { 0 } else { 255 - cycles * 20 }`. -/
def intencityOf (cycles : Nat) : Nat :=
  if cycles * 20 > 255 then 0 else 255 - cycles * 20

/-- The background color chosen by the render loop from a cell's
`current` state, as an `(r, g, b)` triple. -/
def cellColor (s : CellState) : Nat × Nat × Nat :=
  match s with
  | CellState.Alive => (255, 255, 255)
  | CellState.Dead cycles =>
    let intencity := intencityOf cycles
    (intencity / 2, intencity / 5, intencity)

/-- One positioning-plus-color command pushed onto `terminal_commands`. -/
structure TermCmd where
  col : Nat
  row : Nat
  red : Nat
  green : Nat
  blue : Nat
deriving DecidableEq, Repr

/-- The positions visited by the render loop, `y_pos` outer and `x_pos`
inner. -/
def renderPositions (w h : Nat) : List (Nat × Nat) :=
  (List.range h).flatMap (fun y => (List.range w).map (fun x => (x, y)))

/-- The render loop of `main`: for each cell, skip when
`cell.current == cell.next`, otherwise push one positioning command with
the color of `current` at 1-indexed terminal coordinates. -/
def Board.renderCommands (b : Board) : Option (List TermCmd) :=
  (renderPositions b.width b.height).foldlM (fun acc p => do
    let cell ← b.cells.get? (b.index_by_position (p.1 : Int) (p.2 : Int))
    if cell.current = cell.next then pure acc
    else do
      let cell2 ← b.cells.get? (b.index_by_position (p.1 : Int) (p.2 : Int))
      let c := cellColor cell2.current
      pure (acc ++ [⟨p.1 + 1, p.2 + 1, c.1, c.2.1, c.2.2⟩])) []

/-- Iterated stepping: `stepN n b` runs `compute_one_step` `n` times. -/
def stepN : Nat → Board → Option Board
  | 0, b => some b
  | n + 1, b => b.compute_one_step >>= stepN n

/-- The `current` state stored at row-major position `(x, y)`
(defaulting outside the list): the pure view the theorems are stated in. -/
def curAtD (b : Board) (x y : Nat) : CellState :=
  (b.cells.getD (b.width * y + x) Cell.cellDefault).current

/-- Toroidal neighbor coordinate in one dimension: coordinate `x` in a
dimension of size `w`, shifted by `d ∈ {-1, 0, 1}` and wrapped. -/
def nbr (w x : Nat) (d : Int) : Nat := ((x : Int) + w + d).toNat % w

/-- Pure restatement of the source's neighbor count of `Alive` cells:
the number of the eight toroidal Moore neighbors whose `current` is
`Alive`.  Proven equal to `count_cells_around_position` below. -/
def specCount (b : Board) (x y : Nat) : Nat :=
  shifts.countP (fun s =>
    decide (curAtD b (nbr b.width x s.1) (nbr b.height y s.2) = CellState.Alive))

/-- `u8` representability of a cell state's age payload. -/
def u8OK (s : CellState) : Prop :=
  match s with
  | CellState.Alive => True
  | CellState.Dead a => a ≤ 255

instance : DecidablePred u8OK := fun s => by
  unfold u8OK
  match s with
  | CellState.Alive => exact inferInstanceAs (Decidable True)
  | CellState.Dead a => exact inferInstanceAs (Decidable (a ≤ 255))

section IndexLemmas

theorem wrap32_eq_self {z : Int} (h1 : -(2 ^ 31) ≤ z) (h2 : z < 2 ^ 31) : wrap32 z = z := by
  unfold wrap32
  rw [Int.emod_eq_of_lt (by omega) (by omega)]
  omega

theorem usizeOfI32_eq_toNat {z : Int} (h1 : 0 ≤ z) (h2 : z < 2 ^ 64) :
    usizeOfI32 z = z.toNat := by
  unfold usizeOfI32
  rw [Int.emod_eq_of_lt h1 h2]

theorem index_by_position_eq (b : Board)
    (hw : 0 < b.width) (hh : 0 < b.height)
    (hw15 : b.width < 2 ^ 15) (hh15 : b.height < 2 ^ 15)
    {x y : Int}
    (hx0 : 0 ≤ x + b.width) (hx1 : x + b.width < 2 ^ 31)
    (hy0 : 0 ≤ y + b.height) (hy1 : y + b.height < 2 ^ 31) :
    b.index_by_position x y =
      b.width * ((y + b.height) % (b.height : Int)).toNat +
        ((x + b.width) % (b.width : Int)).toNat := by
  have hwI : (0 : Int) < b.width := by exact_mod_cast hw
  have hhI : (0 : Int) < b.height := by exact_mod_cast hh
  have hwI15 : (b.width : Int) < 2 ^ 15 := by exact_mod_cast hw15
  have hhI15 : (b.height : Int) < 2 ^ 15 := by exact_mod_cast hh15
  have e1 : wrap32 (b.width : Int) = b.width := wrap32_eq_self (by omega) (by omega)
  have e2 : wrap32 (b.height : Int) = b.height := wrap32_eq_self (by omega) (by omega)
  have e3 : wrap32 (y + b.height) = y + b.height := wrap32_eq_self (by omega) (by omega)
  have e4 : wrap32 (x + b.width) = x + b.width := wrap32_eq_self (by omega) (by omega)
  have hym0 : 0 ≤ (y + b.height) % (b.height : Int) := Int.emod_nonneg _ (by omega)
  have hym1 : (y + b.height) % (b.height : Int) < b.height := Int.emod_lt_of_pos _ hhI
  have hxm0 : 0 ≤ (x + b.width) % (b.width : Int) := Int.emod_nonneg _ (by omega)
  have hxm1 : (x + b.width) % (b.width : Int) < b.width := Int.emod_lt_of_pos _ hwI
  have etm1 : Int.tmod (y + b.height) (b.height : Int) = (y + b.height) % (b.height : Int) :=
    Int.tmod_eq_emod hy0 (by omega)
  have etm2 : Int.tmod (x + b.width) (b.width : Int) = (x + b.width) % (b.width : Int) :=
    Int.tmod_eq_emod hx0 (by omega)
  have hprod : (b.width : Int) * ((y + b.height) % (b.height : Int)) < 2 ^ 30 := by
    calc (b.width : Int) * ((y + b.height) % (b.height : Int)) < 2 ^ 15 * 2 ^ 15 :=
          mul_lt_mul'' hwI15 (by omega) (by omega) hym0
      _ ≤ 2 ^ 30 := by norm_num
  have hprod0 : 0 ≤ (b.width : Int) * ((y + b.height) % (b.height : Int)) :=
    mul_nonneg (by omega) hym0
  have e5 : wrap32 ((b.width : Int) * ((y + b.height) % (b.height : Int))) =
      (b.width : Int) * ((y + b.height) % (b.height : Int)) :=
    wrap32_eq_self (by omega) (by omega)
  have e6 : wrap32 ((b.width : Int) * ((y + b.height) % (b.height : Int)) +
      (x + b.width) % (b.width : Int)) =
      (b.width : Int) * ((y + b.height) % (b.height : Int)) + (x + b.width) % (b.width : Int) :=
    wrap32_eq_self (by omega) (by omega)
  show usizeOfI32 (wrap32 (wrap32 ((wrap32 (b.width : Int)) *
      (Int.tmod (wrap32 (y + wrap32 (b.height : Int))) (wrap32 (b.height : Int)))) +
      Int.tmod (wrap32 (x + wrap32 (b.width : Int))) (wrap32 (b.width : Int)))) = _
  rw [e1, e2, e3, e4, etm1, etm2, e5, e6,
    usizeOfI32_eq_toNat (by omega) (by omega)]
  obtain ⟨k, hk⟩ : ∃ k : Nat, (y + b.height) % (b.height : Int) = (k : Int) :=
    ⟨((y + b.height) % (b.height : Int)).toNat, (Int.toNat_of_nonneg hym0).symm⟩
  obtain ⟨m, hm⟩ : ∃ m : Nat, (x + b.width) % (b.width : Int) = (m : Int) :=
    ⟨((x + b.width) % (b.width : Int)).toNat, (Int.toNat_of_nonneg hxm0).symm⟩
  rw [hk, hm, ← Nat.cast_mul, ← Nat.cast_add, Int.toNat_natCast, Int.toNat_natCast,
    Int.toNat_natCast]

theorem index_lt (b : Board)
    (hw : 0 < b.width) (hh : 0 < b.height)
    (hw15 : b.width < 2 ^ 15) (hh15 : b.height < 2 ^ 15)
    {x y : Int}
    (hx0 : 0 ≤ x + b.width) (hx1 : x + b.width < 2 ^ 31)
    (hy0 : 0 ≤ y + b.height) (hy1 : y + b.height < 2 ^ 31) :
    b.index_by_position x y < b.width * b.height := by
  rw [index_by_position_eq b hw hh hw15 hh15 hx0 hx1 hy0 hy1]
  have hwI : (0 : Int) < b.width := by exact_mod_cast hw
  have hhI : (0 : Int) < b.height := by exact_mod_cast hh
  have hym1 : (y + b.height) % (b.height : Int) < b.height := Int.emod_lt_of_pos _ hhI
  have hym0 : 0 ≤ (y + b.height) % (b.height : Int) := Int.emod_nonneg _ (by omega)
  have hxm1 : (x + b.width) % (b.width : Int) < b.width := Int.emod_lt_of_pos _ hwI
  have h1 : ((x + b.width) % (b.width : Int)).toNat < b.width := by omega
  have h2 : ((y + b.height) % (b.height : Int)).toNat < b.height := by omega
  calc b.width * ((y + b.height) % (b.height : Int)).toNat +
        ((x + b.width) % (b.width : Int)).toNat <
        b.width * (((y + b.height) % (b.height : Int)).toNat + 1) := by
          rw [Nat.mul_add, Nat.mul_one]; omega
    _ ≤ b.width * b.height := Nat.mul_le_mul_left _ (by omega)

theorem index_center (b : Board)
    (hw : 0 < b.width) (hh : 0 < b.height)
    (hw15 : b.width < 2 ^ 15) (hh15 : b.height < 2 ^ 15)
    {px py : Nat} (hpx : px < b.width) (hpy : py < b.height) :
    b.index_by_position (px : Int) (py : Int) = b.width * py + px := by
  rw [index_by_position_eq b hw hh hw15 hh15 (by omega) (by omega) (by omega) (by omega)]
  have h1 : ((px : Int) + b.width) % (b.width : Int) = px := by
    rw [show ((px : Int) + b.width) = (px : Int) + (b.width : Int) * 1 by ring,
      Int.add_mul_emod_self_left, Int.emod_eq_of_lt (by omega) (by exact_mod_cast hpx)]
  have h2 : ((py : Int) + b.height) % (b.height : Int) = py := by
    rw [show ((py : Int) + b.height) = (py : Int) + (b.height : Int) * 1 by ring,
      Int.add_mul_emod_self_left, Int.emod_eq_of_lt (by omega) (by exact_mod_cast hpy)]
  rw [h1, h2, Int.toNat_natCast, Int.toNat_natCast]

theorem index_nbr (b : Board)
    (hw : 0 < b.width) (hh : 0 < b.height)
    (hw15 : b.width < 2 ^ 15) (hh15 : b.height < 2 ^ 15)
    {px py : Nat} (hpx : px < b.width) (hpy : py < b.height)
    {dx dy : Int} (hdx0 : -1 ≤ dx) (hdx1 : dx ≤ 1) (hdy0 : -1 ≤ dy) (hdy1 : dy ≤ 1) :
    b.index_by_position ((px : Int) + dx) ((py : Int) + dy) =
      b.width * nbr b.height py dy + nbr b.width px dx := by
  have hx0 : 0 ≤ (px : Int) + dx + b.width := by omega
  have hx1 : (px : Int) + dx + b.width < 2 ^ 31 := by omega
  have hy0 : 0 ≤ (py : Int) + dy + b.height := by omega
  have hy1 : (py : Int) + dy + b.height < 2 ^ 31 := by omega
  rw [index_by_position_eq b hw hh hw15 hh15 hx0 hx1 hy0 hy1]
  have ex : (px : Int) + dx + b.width = ((((px : Int) + b.width + dx).toNat : Nat) : Int) := by
    omega
  have ey : (py : Int) + dy + b.height = ((((py : Int) + b.height + dy).toNat : Nat) : Int) := by
    omega
  rw [ex, ey, ← Int.natCast_mod, ← Int.natCast_mod, Int.toNat_natCast, Int.toNat_natCast]
  rfl

end IndexLemmas

/-- C2 (amended): for every board with `0 < width < 2^15` and
`0 < height < 2^15`, and coordinates `x ≥ -width`, `y ≥ -height` small
enough that the `i32` arithmetic does not overflow, `index_by_position`
lands in `[0, width*height)` and satisfies the periodicity equations
`index_by_position(x, y) = index_by_position(x+width, y) =
index_by_position(x, y+height)`. -/
theorem index_range_and_periodicity (b : Board)
    (hw : 0 < b.width) (hh : 0 < b.height)
    (hw15 : b.width < 2 ^ 15) (hh15 : b.height < 2 ^ 15)
    (x y : Int)
    (hx0 : -(b.width : Int) ≤ x) (hx1 : x + 2 * b.width < 2 ^ 31)
    (hy0 : -(b.height : Int) ≤ y) (hy1 : y + 2 * b.height < 2 ^ 31) :
    b.index_by_position x y < b.width * b.height ∧
    b.index_by_position (x + b.width) y = b.index_by_position x y ∧
    b.index_by_position x (y + b.height) = b.index_by_position x y := by
  refine ⟨index_lt b hw hh hw15 hh15 (by omega) (by omega) (by omega) (by omega), ?_, ?_⟩
  · rw [index_by_position_eq b hw hh hw15 hh15 (x := x + b.width)
        (by omega) (by omega) (by omega) (by omega),
      index_by_position_eq b hw hh hw15 hh15
        (by omega) (by omega) (by omega) (by omega)]
    have hper : (x + b.width + b.width) % (b.width : Int) = (x + b.width) % (b.width : Int) := by
      rw [show x + (b.width : Int) + b.width = x + b.width + (b.width : Int) * 1 by ring,
        Int.add_mul_emod_self_left]
    rw [hper]
  · rw [index_by_position_eq b hw hh hw15 hh15 (y := y + b.height)
        (by omega) (by omega) (by omega) (by omega),
      index_by_position_eq b hw hh hw15 hh15
        (by omega) (by omega) (by omega) (by omega)]
    have hper : (y + b.height + b.height) % (b.height : Int) = (y + b.height) % (b.height : Int) := by
      rw [show y + (b.height : Int) + b.height = y + b.height + (b.height : Int) * 1 by ring,
        Int.add_mul_emod_self_left]
    rw [hper]

/-- C2 counterexample: on a 3×3 board, at `x = -4` (one more than a full
wrap below zero) the Rust truncating `%` yields `-1`, whose `as usize`
cast is `2^64 - 1`: the result is far outside `[0, 9)` and the
periodicity equation `index(-4, 0) = index(-4 + 3, 0)` fails. -/
theorem index_by_position_counterexample :
    (Board.from_shape 3 3).index_by_position (-4) 0 = 2 ^ 64 - 1 ∧
    ¬ (Board.from_shape 3 3).index_by_position (-4) 0 < 3 * 3 ∧
    (Board.from_shape 3 3).index_by_position (-4 + 3) 0 = 2 ∧
    (Board.from_shape 3 3).index_by_position (-4) 0 ≠
      (Board.from_shape 3 3).index_by_position (-4 + 3) 0 := by
  refine ⟨by decide, by decide, by decide, by decide⟩

/-- Witness for `index_range_and_periodicity` at a 5×4 board, `x = -3`,
`y = 7`. -/
theorem index_range_and_periodicity_witness :
    (Board.from_shape 5 4).index_by_position (-3) 7 <
      (Board.from_shape 5 4).width * (Board.from_shape 5 4).height ∧
    (Board.from_shape 5 4).index_by_position ((-3) + (Board.from_shape 5 4).width) 7 =
      (Board.from_shape 5 4).index_by_position (-3) 7 ∧
    (Board.from_shape 5 4).index_by_position (-3) (7 + (Board.from_shape 5 4).height) =
      (Board.from_shape 5 4).index_by_position (-3) 7 :=
  index_range_and_periodicity (Board.from_shape 5 4) (by decide) (by decide) (by decide)
    (by decide) (-3) 7 (by decide) (by decide) (by decide) (by decide)

/-- C4 counterexample: `from_shape` called with `width == 0` performs no
check at all: it silently returns the zero-length board the claim says
must not be produced. -/
theorem from_shape_zero_counterexample :
    (Board.from_shape 0 5).cells = [] ∧ (Board.from_shape 0 5).cells.length = 0 ∧
    (Board.from_shape 0 5).width = 0 ∧ (Board.from_shape 0 5).height = 5 :=
  ⟨rfl, rfl, rfl, rfl⟩

/-- C4 (amended): `from_shape` with `width == 0` or `height == 0` is not
rejected; it returns a board whose `cells` vector is empty (the function
has no error path). -/
theorem from_shape_zero_dims (w h : Nat) (hz : w = 0 ∨ h = 0) :
    (Board.from_shape w h).cells.length = 0 ∧ (Board.from_shape w h).cells = [] := by
  have hwh : w * h = 0 := by rcases hz with rfl | rfl <;> simp
  exact ⟨by simp [Board.from_shape, hwh], by simp [Board.from_shape, hwh]⟩

/-- Witness for `from_shape_zero_dims` at `width = 0`, `height = 7`. -/
theorem from_shape_zero_dims_witness :
    (Board.from_shape 0 7).cells.length = 0 ∧ (Board.from_shape 0 7).cells = [] :=
  from_shape_zero_dims 0 7 (Or.inl rfl)

/-- C8: for a dead cell of age `≤ 255`, the rendered intensity is
`255 - 20*age` when `20*age ≤ 255` and saturates to `0` otherwise; the
channel triple is `(intensity/2, intensity/5, intensity)` (blue full,
red halved, green a fifth); and intensity is monotonically
non-increasing in the age. -/
theorem dead_color_intensity (age : Nat) (hage : age ≤ 255) :
    (20 * age ≤ 255 → intencityOf age = 255 - 20 * age) ∧
    (255 < 20 * age → intencityOf age = 0) ∧
    cellColor (CellState.Dead age) =
      (intencityOf age / 2, intencityOf age / 5, intencityOf age) ∧
    (∀ age', age ≤ age' → age' ≤ 255 → intencityOf age' ≤ intencityOf age) := by
  refine ⟨?_, ?_, rfl, ?_⟩
  · intro hle; unfold intencityOf; rw [if_neg (by omega)]; omega
  · intro hgt; unfold intencityOf; rw [if_pos (by omega)]
  · intro age' h1 h2; unfold intencityOf; split_ifs <;> omega

/-- Witness for `dead_color_intensity` at ages 3, 13 and 7. -/
theorem dead_color_intensity_witness :
    intencityOf 3 = 255 - 20 * 3 ∧ intencityOf 13 = 0 ∧
    cellColor (CellState.Dead 3) =
      (intencityOf 3 / 2, intencityOf 3 / 5, intencityOf 3) ∧
    intencityOf 7 ≤ intencityOf 3 :=
  ⟨(dead_color_intensity 3 (by decide)).1 (by decide),
   (dead_color_intensity 13 (by decide)).2.1 (by decide),
   (dead_color_intensity 3 (by decide)).2.2.1,
   (dead_color_intensity 3 (by decide)).2.2.2 7 (by decide) (by decide)⟩

section RandomizeLemmas

theorem randomizeGo_zero (s : Nat → ℚ) (hs : ∀ i, 0 ≤ s i) :
    ∀ i l, randomizeGo 0 s i l = l := by
  intro i l
  induction l generalizing i with
  | nil => rfl
  | cons c rest ih =>
    unfold randomizeGo
    have hb : genBool 0 (s i) = false := by
      unfold genBool
      simp only [decide_eq_false_iff_not, not_lt]
      exact hs i
    rw [hb, if_neg (by simp), ih]

theorem randomizeGo_one (s : Nat → ℚ) (hs : ∀ i, s i < 1) :
    ∀ i l c, c ∈ randomizeGo 1 s i l → c.current = CellState.Alive := by
  intro i l
  induction l generalizing i with
  | nil => intro c hc; cases hc
  | cons a rest ih =>
    intro c hc
    unfold randomizeGo at hc
    have hb : genBool 1 (s i) = true := by
      unfold genBool
      simp only [decide_eq_true_eq]
      exact hs i
    rw [hb, if_pos rfl] at hc
    rcases List.mem_cons.mp hc with rfl | hmem
    · rfl
    · exact ih (i + 1) c hmem

theorem randomizeGo_mem (p : ℚ) (s : Nat → ℚ) :
    ∀ i l c, c ∈ randomizeGo p s i l →
      ∃ c₀ ∈ l, c = c₀ ∨ c = { c₀ with current := CellState.Alive } := by
  intro i l
  induction l generalizing i with
  | nil => intro c hc; cases hc
  | cons a rest ih =>
    intro c hc
    unfold randomizeGo at hc
    rcases List.mem_cons.mp hc with hhead | hmem
    · refine ⟨a, List.mem_cons_self a rest, ?_⟩
      by_cases hb : genBool p (s i) = true
      · right; rw [hhead, if_pos hb]
      · left; rw [hhead, if_neg hb]
    · obtain ⟨c₀, hc₀, hor⟩ := ih (i + 1) c hmem
      exact ⟨c₀, List.mem_cons_of_mem a hc₀, hor⟩

theorem randomizeGo_length (p : ℚ) (s : Nat → ℚ) :
    ∀ i l, (randomizeGo p s i l).length = l.length := by
  intro i l
  induction l generalizing i with
  | nil => rfl
  | cons a rest ih => unfold randomizeGo; simp [ih]

end RandomizeLemmas

/-- C7: on a freshly constructed board, `randomize` with probability `0`
leaves every cell's `current` at `Dead(u8::MAX)`, and `randomize` with
probability `1` sets every cell's `current` to `Alive`, for every valid
random generator (its uniform samples lie in `[0, 1)`). -/
theorem randomize_extreme_probabilities (w h : Nat) (g : RandomGen)
    (hg : ∀ i, 0 ≤ g.sample i ∧ g.sample i < 1) :
    (∀ c ∈ ((Board.from_shape w h).randomize 0 g).cells,
        c.current = CellState.Dead 255) ∧
    (∀ c ∈ ((Board.from_shape w h).randomize 1 g).cells,
        c.current = CellState.Alive) := by
  constructor
  · intro c hc
    have hz := randomizeGo_zero g.sample (fun i => (hg i).1) 0
      (Board.from_shape w h).cells
    rw [Board.randomize] at hc
    simp only at hc
    rw [hz] at hc
    have hd := List.eq_of_mem_replicate hc
    rw [hd]
    rfl
  · intro c hc
    rw [Board.randomize] at hc
    simp only at hc
    exact randomizeGo_one g.sample (fun i => (hg i).2) 0 _ c hc

section StepMachinery

theorem get?_eq_getD {l : List Cell} {n : Nat} (h : n < l.length) :
    l.get? n = some (l.getD n Cell.cellDefault) := by
  rw [List.getD_eq_getElem?_getD, List.get?_eq_getElem?, List.getElem?_eq_getElem h]
  rfl

theorem getD_mem {l : List Cell} {n : Nat} (h : n < l.length) :
    l.getD n Cell.cellDefault ∈ l := by
  rw [List.getD_eq_getElem?_getD, List.getElem?_eq_getElem h]
  exact List.getElem_mem h

theorem nbr_lt {w : Nat} (hw : 0 < w) (x : Nat) (d : Int) : nbr w x d < w :=
  Nat.mod_lt _ hw

theorem rowMajor_lt (b : Board) {X Y : Nat} (hX : X < b.width) (hY : Y < b.height) :
    b.width * Y + X < b.width * b.height :=
  calc b.width * Y + X < b.width * (Y + 1) := by rw [Nat.mul_add, Nat.mul_one]; omega
    _ ≤ b.width * b.height := Nat.mul_le_mul_left _ (by omega)

theorem foldl_count_option (bb : Board) (px py : Nat) (st : CellState) :
    ∀ (L : List (Int × Int)) (n : Nat),
      (∀ s ∈ L,
        (bb.cells.get? (bb.index_by_position ((px : Int) + s.1) ((py : Int) + s.2))).isSome) →
      L.foldlM (fun counter s => do
          let cell ← bb.cells.get? (bb.index_by_position ((px : Int) + s.1) ((py : Int) + s.2))
          pure (if cell.current = st then counter + 1 else counter)) n =
        some (n + L.countP (fun s =>
          decide ((bb.cells.getD (bb.index_by_position ((px : Int) + s.1) ((py : Int) + s.2))
            Cell.cellDefault).current = st))) := by
  intro L
  induction L with
  | nil => intro n _; simp [List.foldlM_nil, List.countP_nil]
  | cons s L ih =>
    intro n hsome
    obtain ⟨v, hv⟩ := Option.isSome_iff_exists.mp (hsome s (List.mem_cons_self s L))
    have hgetD : bb.cells.getD
        (bb.index_by_position ((px : Int) + s.1) ((py : Int) + s.2)) Cell.cellDefault = v := by
      rw [List.getD_eq_getElem?_getD, ← List.get?_eq_getElem?, hv]
      rfl
    rw [List.foldlM_cons]
    simp only [hv, Option.bind_eq_bind, Option.some_bind, Option.pure_def]
    have ih' := ih (if v.current = st then n + 1 else n)
      (fun t ht => hsome t (List.mem_cons_of_mem s ht))
    simp only [Option.bind_eq_bind, Option.pure_def] at ih'
    rw [ih']
    simp only [List.countP_cons, hgetD]
    by_cases hc : v.current = st
    · rw [if_pos hc, if_pos (by simpa using hc), Option.some.injEq]
      omega
    · rw [if_neg hc, if_neg (by simpa using hc), Option.some.injEq]
      omega

theorem count_eq_specCount (b : Board)
    (hlen : b.cells.length = b.width * b.height)
    (hw : 0 < b.width) (hh : 0 < b.height)
    (hw15 : b.width < 2 ^ 15) (hh15 : b.height < 2 ^ 15)
    {px py : Nat} (hpx : px < b.width) (hpy : py < b.height) :
    b.count_cells_around_position (px : Int) (py : Int) CellState.Alive =
      some (specCount b px py) := by
  have hbounds : ∀ s ∈ shifts, (-1 ≤ s.1 ∧ s.1 ≤ 1) ∧ (-1 ≤ s.2 ∧ s.2 ≤ 1) := by decide
  have hidx : ∀ s ∈ shifts,
      b.index_by_position ((px : Int) + s.1) ((py : Int) + s.2) =
        b.width * nbr b.height py s.2 + nbr b.width px s.1 := fun s hs =>
    index_nbr b hw hh hw15 hh15 hpx hpy (hbounds s hs).1.1 (hbounds s hs).1.2
      (hbounds s hs).2.1 (hbounds s hs).2.2
  have hsome : ∀ s ∈ shifts,
      (b.cells.get? (b.index_by_position ((px : Int) + s.1) ((py : Int) + s.2))).isSome := by
    intro s hs
    rw [hidx s hs,
      get?_eq_getD (by rw [hlen]; exact rowMajor_lt b (nbr_lt hw px s.1) (nbr_lt hh py s.2))]
    rfl
  have main := foldl_count_option b px py CellState.Alive shifts 0 hsome
  have hcp : List.countP (fun s =>
      decide ((b.cells.getD (b.index_by_position ((px : Int) + s.1) ((py : Int) + s.2))
        Cell.cellDefault).current = CellState.Alive)) shifts = specCount b px py := by
    unfold specCount
    apply List.countP_congr
    intro s hs
    simp only [decide_eq_true_eq, curAtD]
    rw [hidx s hs]
  rw [Nat.zero_add, hcp] at main
  exact main

theorem phase1At_eq (b : Board)
    (hlen : b.cells.length = b.width * b.height)
    (hw : 0 < b.width) (hh : 0 < b.height)
    (hw15 : b.width < 2 ^ 15) (hh15 : b.height < 2 ^ 15)
    {p : Nat × Nat} (hp1 : p.1 < b.width) (hp2 : p.2 < b.height) :
    b.phase1At p = some { b with cells := (b.cells.set (b.width * p.2 + p.1)
      (⟨(b.cells.getD (b.width * p.2 + p.1) Cell.cellDefault).current,
        lifeRule (b.cells.getD (b.width * p.2 + p.1) Cell.cellDefault).current
          (specCount b p.1 p.2)⟩ : Cell)) } := by
  unfold Board.phase1At
  rw [count_eq_specCount b hlen hw hh hw15 hh15 hp1 hp2]
  simp only [Option.bind_eq_bind, Option.some_bind]
  rw [index_center b hw hh hw15 hh15 hp1 hp2,
    get?_eq_getD (by rw [hlen]; exact rowMajor_lt b hp1 hp2)]
  rfl

/-- The shape facts all step theorems assume: positive dimensions small
enough for the `i32` arithmetic, and the length invariant. -/
def ShapeOK (b : Board) : Prop :=
  0 < b.width ∧ 0 < b.height ∧ b.width < 2 ^ 15 ∧ b.height < 2 ^ 15 ∧
    b.cells.length = b.width * b.height

/-- `c` has the same dimensions and the same `current` fields as `b`
(the `next` fields may differ): the invariant of phase 1. -/
def SameCur (b c : Board) : Prop :=
  c.width = b.width ∧ c.height = b.height ∧ c.cells.length = b.cells.length ∧
    ∀ i, (c.cells.get? i).map Cell.current = (b.cells.get? i).map Cell.current

theorem sameCur_refl (b : Board) : SameCur b b := ⟨rfl, rfl, rfl, fun _ => rfl⟩

theorem sameCur_getD {b c : Board} (h : SameCur b c) (i : Nat) :
    (c.cells.getD i Cell.cellDefault).current = (b.cells.getD i Cell.cellDefault).current := by
  obtain ⟨-, -, hl, hcur⟩ := h
  have hmap := hcur i
  by_cases hi : i < b.cells.length
  · rw [get?_eq_getD (by omega), get?_eq_getD hi] at hmap
    simpa using hmap
  · rw [List.getD_eq_default _ _ (by omega), List.getD_eq_default _ _ (by omega)]

theorem sameCur_curAtD {b c : Board} (h : SameCur b c) (x y : Nat) :
    curAtD c x y = curAtD b x y := by
  unfold curAtD
  rw [h.1]
  exact sameCur_getD h _

theorem sameCur_specCount {b c : Board} (h : SameCur b c) (x y : Nat) :
    specCount c x y = specCount b x y := by
  unfold specCount
  rw [h.1, h.2.1]
  apply List.countP_congr
  intro s hs
  simp only [decide_eq_true_eq]
  rw [sameCur_curAtD h]

theorem foldlM_phase1 (b : Board) (hb : ShapeOK b) :
    ∀ (L : List (Nat × Nat)), (∀ p ∈ L, p.1 < b.width ∧ p.2 < b.height) →
    ∀ (c : Board), SameCur b c →
    ∃ c', L.foldlM Board.phase1At c = some c' ∧ SameCur b c' ∧
      (∀ i, (∃ p ∈ L, b.width * p.2 + p.1 = i) →
        c'.cells.get? i = some
          (⟨(b.cells.getD i Cell.cellDefault).current,
            lifeRule (b.cells.getD i Cell.cellDefault).current
              (specCount b (i % b.width) (i / b.width))⟩ : Cell)) ∧
      (∀ i, ¬ (∃ p ∈ L, b.width * p.2 + p.1 = i) → c'.cells.get? i = c.cells.get? i) := by
  obtain ⟨hw, hh, hw15, hh15, hlen⟩ := hb
  intro L
  induction L with
  | nil =>
    intro _ c hc
    exact ⟨c, rfl, hc, fun i hi => absurd hi (by simp), fun i _ => rfl⟩
  | cons p L ih =>
    intro hL c hc
    obtain ⟨hcw, hch, hcl, hccur⟩ := hc
    have hp := hL p (List.mem_cons_self p L)
    have hlen_c : c.cells.length = c.width * c.height := by rw [hcl, hlen, hcw, hch]
    have hw_c : 0 < c.width := by rw [hcw]; exact hw
    have hh_c : 0 < c.height := by rw [hch]; exact hh
    have hw15_c : c.width < 2 ^ 15 := by rw [hcw]; exact hw15
    have hh15_c : c.height < 2 ^ 15 := by rw [hch]; exact hh15
    have hp1c : p.1 < c.width := by rw [hcw]; exact hp.1
    have hp2c : p.2 < c.height := by rw [hch]; exact hp.2
    have hiplt : b.width * p.2 + p.1 < b.cells.length := by
      rw [hlen]; exact rowMajor_lt b hp.1 hp.2
    have hipltc : b.width * p.2 + p.1 < c.cells.length := by omega
    have hstep : c.phase1At p = some { c with cells := (c.cells.set (b.width * p.2 + p.1)
        (⟨(b.cells.getD (b.width * p.2 + p.1) Cell.cellDefault).current,
         lifeRule ((b.cells.getD (b.width * p.2 + p.1) Cell.cellDefault).current)
           (specCount b p.1 p.2)⟩ : Cell)) } := by
      rw [phase1At_eq c hlen_c hw_c hh_c hw15_c hh15_c hp1c hp2c]
      have e : c.width * p.2 + p.1 = b.width * p.2 + p.1 := by rw [hcw]
      rw [e, sameCur_getD ⟨hcw, hch, hcl, hccur⟩ (b.width * p.2 + p.1),
        sameCur_specCount ⟨hcw, hch, hcl, hccur⟩ p.1 p.2]
    have hc1 : SameCur b { c with cells := (c.cells.set (b.width * p.2 + p.1)
        (⟨(b.cells.getD (b.width * p.2 + p.1) Cell.cellDefault).current,
         lifeRule ((b.cells.getD (b.width * p.2 + p.1) Cell.cellDefault).current)
           (specCount b p.1 p.2)⟩ : Cell)) } := by
      refine ⟨hcw, hch, by simpa using hcl, ?_⟩
      intro i
      show ((c.cells.set (b.width * p.2 + p.1) _).get? i).map Cell.current = _
      rw [List.get?_set]
      split_ifs with hmi
      · subst hmi
        rw [get?_eq_getD hipltc, get?_eq_getD hiplt]
        rfl
      · exact hccur i
    obtain ⟨c', hfold, hc', hcov, hunc⟩ :=
      ih (fun q hq => hL q (List.mem_cons_of_mem p hq)) _ hc1
    refine ⟨c', ?_, hc', ?_, ?_⟩
    · rw [List.foldlM_cons, hstep]
      simp only [Option.bind_eq_bind, Option.some_bind]
      exact hfold
    · intro i hi
      by_cases hiL : ∃ q ∈ L, b.width * q.2 + q.1 = i
      · exact hcov i hiL
      · obtain ⟨q, hq, hqe⟩ := hi
        rcases List.mem_cons.mp hq with rfl | hqL
        · have hieq : b.width * q.2 + q.1 = i := hqe
          rw [hunc i hiL, ← hieq]
          have e1 : (b.width * q.2 + q.1) % b.width = q.1 := by
            rw [Nat.mul_add_mod]; exact Nat.mod_eq_of_lt hp.1
          have e2 : (b.width * q.2 + q.1) / b.width = q.2 := by
            rw [Nat.mul_add_div hw, Nat.div_eq_of_lt hp.1]
            omega
          show ((c.cells.set (b.width * q.2 + q.1) _).get? (b.width * q.2 + q.1)) = _
          rw [List.get?_set, if_pos rfl, get?_eq_getD hipltc, e1, e2]
          rfl
        · exact absurd ⟨q, hqL, hqe⟩ hiL
    · intro i hi
      have hiL : ¬ ∃ q ∈ L, b.width * q.2 + q.1 = i := by
        rintro ⟨q, hq, he⟩
        exact hi ⟨q, List.mem_cons_of_mem p hq, he⟩
      have hipne : b.width * p.2 + p.1 ≠ i := fun he =>
        hi ⟨p, List.mem_cons_self p L, he⟩
      rw [hunc i hiL]
      show ((c.cells.set (b.width * p.2 + p.1) _).get? i) = _
      rw [List.get?_set_ne _ _ hipne]

theorem mem_stepPositions {w h : Nat} {p : Nat × Nat} :
    p ∈ stepPositions w h ↔ p.1 < w ∧ p.2 < h := by
  obtain ⟨a, c⟩ := p
  simp only [stepPositions, List.mem_flatMap, List.mem_map, List.mem_range, Prod.mk.injEq]
  constructor
  · rintro ⟨x, hx, y, hy, rfl, rfl⟩
    exact ⟨hx, hy⟩
  · rintro ⟨ha, hc⟩
    exact ⟨a, ha, c, hc, rfl, rfl⟩

theorem step_formula (b : Board)
    (hw : 0 < b.width) (hh : 0 < b.height)
    (hw15 : b.width < 2 ^ 15) (hh15 : b.height < 2 ^ 15)
    (hlen : b.cells.length = b.width * b.height) :
    ∃ b', b.compute_one_step = some b' ∧
      b'.width = b.width ∧ b'.height = b.height ∧ b'.cells.length = b.cells.length ∧
      ∀ x y, x < b.width → y < b.height →
        b'.cells.get? (b.width * y + x) =
          some ⟨lifeRule (curAtD b x y) (specCount b x y), curAtD b x y⟩ := by
  obtain ⟨c', hfold, hc', hcov, -⟩ := foldlM_phase1 b ⟨hw, hh, hw15, hh15, hlen⟩
    (stepPositions b.width b.height) (fun p hp => mem_stepPositions.mp hp) b (sameCur_refl b)
  refine ⟨{ c' with cells := c'.cells.map (fun c => ⟨c.next, c.current⟩) }, ?_, hc'.1, hc'.2.1,
    by simpa using hc'.2.2.1, ?_⟩
  · unfold Board.compute_one_step
    rw [hfold]
    rfl
  · intro x y hx hy
    have hi := hcov (b.width * y + x) ⟨(x, y), mem_stepPositions.mpr ⟨hx, hy⟩, rfl⟩
    have e1 : (b.width * y + x) % b.width = x := by
      rw [Nat.mul_add_mod]; exact Nat.mod_eq_of_lt hx
    have e2 : (b.width * y + x) / b.width = y := by
      rw [Nat.mul_add_div hw, Nat.div_eq_of_lt hx]
      omega
    show ((c'.cells.map (fun c => (⟨c.next, c.current⟩ : Cell))).get? (b.width * y + x)) = _
    rw [List.get?_map, hi, e1, e2]
    rfl

theorem lifeRule_claim_alive (cnt : Nat) :
    lifeRule CellState.Alive cnt =
      (if cnt = 2 ∨ cnt = 3 then CellState.Alive else CellState.Dead 1) := by
  rcases cnt with _ | _ | _ | _ | n <;> simp [lifeRule]

theorem lifeRule_claim_dead (age cnt : Nat) (hage : age ≤ 255) :
    lifeRule (CellState.Dead age) cnt =
      (if cnt = 3 then CellState.Alive
       else if age < 255 then CellState.Dead (age + 1) else CellState.Dead 255) := by
  simp only [lifeRule]
  by_cases h3 : cnt = 3
  · rw [if_pos h3, if_pos h3]
  · rw [if_neg h3, if_neg h3]
    by_cases hlt : age < 255
    · rw [if_pos hlt]
      congr 1
      split <;> omega
    · have h255 : age = 255 := by omega
      subst h255
      rw [if_neg hlt]

end StepMachinery

/-- C1: for every well-shaped board (`cells.length = width*height`,
`0 < width < 2^15`, `0 < height < 2^15`, ages representable in `u8`),
`compute_one_step` succeeds and sets each cell's new `current` as a
function of the old `current` fields only: an `Alive` cell stays `Alive`
iff its Moore count of old-`Alive` neighbors is 2 or 3 and becomes
`Dead(1)` otherwise; a `Dead(age)` cell becomes `Alive` iff that count
is exactly 3, otherwise `Dead(age+1)` for `age < 255` and `Dead(255)`
(saturating) at the maximum.  The formula is independent of the
iteration order: phase 1 writes only `next` while reading only
`current`. -/
theorem compute_one_step_life_rule (b : Board)
    (hlen : b.cells.length = b.width * b.height)
    (hw : 0 < b.width) (hh : 0 < b.height)
    (hw15 : b.width < 2 ^ 15) (hh15 : b.height < 2 ^ 15)
    (hu8 : ∀ c ∈ b.cells, u8OK c.current) :
    ∃ b', b.compute_one_step = some b' ∧
      ∀ x, x < b.width → ∀ y, y < b.height →
        (curAtD b x y = CellState.Alive →
          (b'.cells.get? (b.width * y + x)).map Cell.current =
            some (if specCount b x y = 2 ∨ specCount b x y = 3 then CellState.Alive
              else CellState.Dead 1)) ∧
        (∀ age, curAtD b x y = CellState.Dead age →
          (b'.cells.get? (b.width * y + x)).map Cell.current =
            some (if specCount b x y = 3 then CellState.Alive
              else if age < 255 then CellState.Dead (age + 1)
              else CellState.Dead 255)) := by
  obtain ⟨b', h1, h2, h3, h4, h5⟩ := step_formula b hw hh hw15 hh15 hlen
  refine ⟨b', h1, ?_⟩
  intro x hx y hy
  rw [h5 x y hx hy]
  have hu : u8OK (curAtD b x y) :=
    hu8 _ (getD_mem (by rw [hlen]; exact rowMajor_lt b hx hy))
  constructor
  · intro hal
    rw [Option.map_some']
    show some (lifeRule (curAtD b x y) (specCount b x y)) = _
    rw [hal, lifeRule_claim_alive]
  · intro age hdead
    rw [Option.map_some']
    show some (lifeRule (curAtD b x y) (specCount b x y)) = _
    rw [hdead] at hu ⊢
    exact congrArg some (lifeRule_claim_dead age (specCount b x y) hu)

/-- Witness for `compute_one_step_life_rule` on a fresh 3×3 board. -/
theorem compute_one_step_life_rule_witness :
    ∃ b', (Board.from_shape 3 3).compute_one_step = some b' ∧
      ∀ x, x < (Board.from_shape 3 3).width → ∀ y, y < (Board.from_shape 3 3).height →
        (curAtD (Board.from_shape 3 3) x y = CellState.Alive →
          (b'.cells.get? ((Board.from_shape 3 3).width * y + x)).map Cell.current =
            some (if specCount (Board.from_shape 3 3) x y = 2 ∨
                specCount (Board.from_shape 3 3) x y = 3 then CellState.Alive
              else CellState.Dead 1)) ∧
        (∀ age, curAtD (Board.from_shape 3 3) x y = CellState.Dead age →
          (b'.cells.get? ((Board.from_shape 3 3).width * y + x)).map Cell.current =
            some (if specCount (Board.from_shape 3 3) x y = 3 then CellState.Alive
              else if age < 255 then CellState.Dead (age + 1)
              else CellState.Dead 255)) :=
  compute_one_step_life_rule (Board.from_shape 3 3) (by decide) (by decide) (by decide)
    (by decide) (by decide) (by decide)

/-- C3: on a well-shaped board, for all coordinates within one full wrap
of bounds (`x ∈ [-width, 2*width)`, `y ∈ [-height, 2*height)`),
`index_by_position` lands strictly below `width*height`, so every
`cells` lookup performed by `count_cells_around_position` and
`compute_one_step` succeeds: the `None`/out-of-bounds branch is
unreachable. -/
theorem lookups_always_succeed (b : Board)
    (hlen : b.cells.length = b.width * b.height)
    (hw : 0 < b.width) (hh : 0 < b.height)
    (hw15 : b.width < 2 ^ 15) (hh15 : b.height < 2 ^ 15) :
    (∀ x y : Int, -(b.width : Int) ≤ x → x < 2 * b.width →
      -(b.height : Int) ≤ y → y < 2 * b.height →
      b.index_by_position x y < b.width * b.height ∧
      (b.cells.get? (b.index_by_position x y)).isSome) ∧
    (∀ x, x < b.width → ∀ y, y < b.height →
      (b.count_cells_around_position (x : Int) (y : Int) CellState.Alive).isSome) ∧
    (b.compute_one_step).isSome := by
  refine ⟨?_, ?_, ?_⟩
  · intro x y hx0 hx1 hy0 hy1
    have hlt := index_lt b hw hh hw15 hh15 (x := x) (y := y)
      (by omega) (by omega) (by omega) (by omega)
    refine ⟨hlt, ?_⟩
    rw [get?_eq_getD (by rw [hlen]; exact hlt)]
    rfl
  · intro x hx y hy
    rw [count_eq_specCount b hlen hw hh hw15 hh15 hx hy]
    rfl
  · obtain ⟨b', h1, -⟩ := step_formula b hw hh hw15 hh15 hlen
    rw [h1]
    rfl

/-- Witness for `lookups_always_succeed` on a fresh 4×4 board. -/
theorem lookups_always_succeed_witness :
    (∀ x y : Int, -((Board.from_shape 4 4).width : Int) ≤ x →
      x < 2 * (Board.from_shape 4 4).width →
      -((Board.from_shape 4 4).height : Int) ≤ y →
      y < 2 * (Board.from_shape 4 4).height →
      (Board.from_shape 4 4).index_by_position x y <
        (Board.from_shape 4 4).width * (Board.from_shape 4 4).height ∧
      ((Board.from_shape 4 4).cells.get?
        ((Board.from_shape 4 4).index_by_position x y)).isSome) ∧
    (∀ x, x < (Board.from_shape 4 4).width → ∀ y, y < (Board.from_shape 4 4).height →
      ((Board.from_shape 4 4).count_cells_around_position (x : Int) (y : Int)
        CellState.Alive).isSome) ∧
    ((Board.from_shape 4 4).compute_one_step).isSome :=
  lookups_always_succeed (Board.from_shape 4 4) (by decide) (by decide) (by decide)
    (by decide) (by decide)

/-- C9: the invariant `cells.length = width * height` is established by
`from_shape` and preserved by `randomize` and `compute_one_step`, none
of which changes the `width` or `height` fields. -/
theorem shape_invariant :
    (∀ w h : Nat, (Board.from_shape w h).cells.length = w * h ∧
      (Board.from_shape w h).width = w ∧ (Board.from_shape w h).height = h) ∧
    (∀ (b : Board) (p : ℚ) (g : RandomGen),
      (b.randomize p g).cells.length = b.cells.length ∧
      (b.randomize p g).width = b.width ∧ (b.randomize p g).height = b.height) ∧
    (∀ b : Board, b.cells.length = b.width * b.height → 0 < b.width → 0 < b.height →
      b.width < 2 ^ 15 → b.height < 2 ^ 15 →
      ∃ b', b.compute_one_step = some b' ∧ b'.cells.length = b.cells.length ∧
        b'.width = b.width ∧ b'.height = b.height) := by
  refine ⟨?_, ?_, ?_⟩
  · intro w h
    exact ⟨by simp [Board.from_shape], rfl, rfl⟩
  · intro b p g
    exact ⟨randomizeGo_length p g.sample 0 b.cells, rfl, rfl⟩
  · intro b hlen hw hh hw15 hh15
    obtain ⟨b', h1, h2, h3, h4, -⟩ := step_formula b hw hh hw15 hh15 hlen
    exact ⟨b', h1, h4, h2, h3⟩

/-- Witness for `shape_invariant` on a 4×4 board. -/
theorem shape_invariant_witness :
    (Board.from_shape 4 4).cells.length = 4 * 4 ∧
    ((Board.from_shape 4 4).randomize 0 halfGen).cells.length =
      (Board.from_shape 4 4).cells.length ∧
    ∃ b', (Board.from_shape 4 4).compute_one_step = some b' ∧
      b'.cells.length = (Board.from_shape 4 4).cells.length ∧
      b'.width = (Board.from_shape 4 4).width ∧
      b'.height = (Board.from_shape 4 4).height :=
  ⟨(shape_invariant.1 4 4).1, (shape_invariant.2.1 _ 0 halfGen).1,
   shape_invariant.2.2 (Board.from_shape 4 4) (by decide) (by decide) (by decide)
     (by decide) (by decide)⟩

section StillLife

theorem nbr_negOne (w x : Nat) : nbr w x (-1) = (x + w + 0 - 1) % w := by
  unfold nbr
  have h : ((x : Int) + w + (-1)).toNat = x + w + 0 - 1 := by omega
  rw [h]

theorem nbr_zeroShift (w x : Nat) : nbr w x 0 = (x + w + 1 - 1) % w := by
  unfold nbr
  have h : ((x : Int) + w + 0).toNat = x + w + 1 - 1 := by omega
  rw [h]

theorem nbr_posOne (w x : Nat) : nbr w x 1 = (x + w + 2 - 1) % w := by
  unfold nbr
  have h : ((x : Int) + w + 1).toNat = x + w + 2 - 1 := by omega
  rw [h]

theorem rel_shift (w x bx e : Nat) (hw : 0 < w) (hbx : bx < w) :
    ((x + w + e - 1) % w + w - bx) % w = ((x + w - bx) % w + w + e - 1) % w := by
  have e1 : (x + w + e - 1) % w + w - bx = (x + w + e - 1) % w + (w - bx) := by omega
  rw [e1, Nat.mod_add_mod]
  have e2 : (x + w - bx) % w + w + e - 1 = (x + w - bx) % w + (w + e - 1) := by omega
  rw [e2, Nat.mod_add_mod]
  congr 1
  omega

theorem wrap_lt_two (w u e : Nat) (hw4 : 4 ≤ w) (hu : u < w) (he : e ≤ 2) :
    ((u + w + e - 1) % w < 2) ↔ (u + e = 1 ∨ u + e = 2 ∨ u + e = w + 1) := by
  rcases Nat.lt_or_ge (u + e) 1 with h0 | h1
  · have hv : u + w + e - 1 = w - 1 := by omega
    rw [hv, Nat.mod_eq_of_lt (by omega)]
    omega
  · rcases Nat.lt_or_ge w (u + e) with hgt | hle
    swap
    · have hv : u + w + e - 1 = (u + e - 1) + w := by omega
      rw [hv, Nat.add_mod_right, Nat.mod_eq_of_lt (by omega)]
      omega
    · have hv : u + w + e - 1 = 2 * w := by omega
      rw [hv, Nat.mul_mod_left]
      omega

theorem specCount_block (b : Board)
    (hw4 : 4 ≤ b.width) (hh4 : 4 ≤ b.height)
    (bx b_y : Nat) (hbx : bx < b.width) (hby : b_y < b.height)
    (hblock : ∀ x, x < b.width → ∀ y, y < b.height →
      (curAtD b x y = CellState.Alive ↔
        ((x + b.width - bx) % b.width < 2 ∧ (y + b.height - b_y) % b.height < 2)))
    (x y : Nat) :
    (((x + b.width - bx) % b.width < 2 ∧ (y + b.height - b_y) % b.height < 2) →
      specCount b x y = 3) ∧
    (¬ ((x + b.width - bx) % b.width < 2 ∧ (y + b.height - b_y) % b.height < 2) →
      specCount b x y ≤ 2) := by
  have hw : 0 < b.width := by omega
  have hh : 0 < b.height := by omega
  have hu : (x + b.width - bx) % b.width < b.width := Nat.mod_lt _ hw
  have hv : (y + b.height - b_y) % b.height < b.height := Nat.mod_lt _ hh
  have hone : ∀ e f : Nat, e ≤ 2 → f ≤ 2 →
      (curAtD b ((x + b.width + e - 1) % b.width) ((y + b.height + f - 1) % b.height) =
          CellState.Alive ↔
        (((x + b.width - bx) % b.width + e = 1 ∨ (x + b.width - bx) % b.width + e = 2 ∨
            (x + b.width - bx) % b.width + e = b.width + 1) ∧
         ((y + b.height - b_y) % b.height + f = 1 ∨
            (y + b.height - b_y) % b.height + f = 2 ∨
            (y + b.height - b_y) % b.height + f = b.height + 1))) := by
    intro e f he hf
    rw [hblock _ (Nat.mod_lt _ hw) _ (Nat.mod_lt _ hh),
      rel_shift b.width x bx e hw hbx, rel_shift b.height y b_y f hh hby,
      wrap_lt_two b.width _ e hw4 hu he, wrap_lt_two b.height _ f hh4 hv hf]
  have h00 := hone 0 0 (by omega) (by omega)
  have h01 := hone 0 1 (by omega) (by omega)
  have h02 := hone 0 2 (by omega) (by omega)
  have h10 := hone 1 0 (by omega) (by omega)
  have h12 := hone 1 2 (by omega) (by omega)
  have h20 := hone 2 0 (by omega) (by omega)
  have h21 := hone 2 1 (by omega) (by omega)
  have h22 := hone 2 2 (by omega) (by omega)
  set u := (x + b.width - bx) % b.width with hU
  set v := (y + b.height - b_y) % b.height with hV
  constructor
  · intro hin
    simp only [specCount, shifts, List.countP_cons, List.countP_nil, nbr_negOne,
      nbr_zeroShift, nbr_posOne, decide_eq_true_eq, h00, h01, h02, h10, h12, h20, h21, h22]
    by_cases hX0 : u + 0 = 1 ∨ u + 0 = 2 ∨ u + 0 = b.width + 1 <;>
      by_cases hX1 : u + 1 = 1 ∨ u + 1 = 2 ∨ u + 1 = b.width + 1 <;>
      by_cases hX2 : u + 2 = 1 ∨ u + 2 = 2 ∨ u + 2 = b.width + 1 <;>
      by_cases hY0 : v + 0 = 1 ∨ v + 0 = 2 ∨ v + 0 = b.height + 1 <;>
      by_cases hY1 : v + 1 = 1 ∨ v + 1 = 2 ∨ v + 1 = b.height + 1 <;>
      by_cases hY2 : v + 2 = 1 ∨ v + 2 = 2 ∨ v + 2 = b.height + 1 <;>
      simp only [hX0, hX1, hX2, hY0, hY1, hY2, and_true, and_false, true_and, false_and,
        and_self, if_true, if_false] <;>
      omega
  · intro hnotin
    simp only [specCount, shifts, List.countP_cons, List.countP_nil, nbr_negOne,
      nbr_zeroShift, nbr_posOne, decide_eq_true_eq, h00, h01, h02, h10, h12, h20, h21, h22]
    by_cases hX0 : u + 0 = 1 ∨ u + 0 = 2 ∨ u + 0 = b.width + 1 <;>
      by_cases hX1 : u + 1 = 1 ∨ u + 1 = 2 ∨ u + 1 = b.width + 1 <;>
      by_cases hX2 : u + 2 = 1 ∨ u + 2 = 2 ∨ u + 2 = b.width + 1 <;>
      by_cases hY0 : v + 0 = 1 ∨ v + 0 = 2 ∨ v + 0 = b.height + 1 <;>
      by_cases hY1 : v + 1 = 1 ∨ v + 1 = 2 ∨ v + 1 = b.height + 1 <;>
      by_cases hY2 : v + 2 = 1 ∨ v + 2 = 2 ∨ v + 2 = b.height + 1 <;>
      simp only [hX0, hX1, hX2, hY0, hY1, hY2, and_true, and_false, true_and, false_and,
        and_self, if_true, if_false] <;>
      omega

theorem lifeRule_dead_not_alive (a cnt : Nat) (hcnt : cnt ≠ 3) :
    lifeRule (CellState.Dead a) cnt ≠ CellState.Alive := by
  simp only [lifeRule]
  rw [if_neg hcnt]
  intro h
  cases h

end StillLife

/-- C5: on every well-shaped board of width ≥ 4 and height ≥ 4 whose
`current` states form exactly one toroidally-placed 2×2 block of `Alive`
cells (anchored at `(bx, b_y)`, possibly straddling the wrap edge) with
every other cell `Dead`, one `compute_one_step` succeeds and leaves
exactly the same 2×2 block `Alive`, every other cell `Dead`. -/
theorem still_life_block (b : Board)
    (hlen : b.cells.length = b.width * b.height)
    (hw4 : 4 ≤ b.width) (hh4 : 4 ≤ b.height)
    (hw15 : b.width < 2 ^ 15) (hh15 : b.height < 2 ^ 15)
    (bx b_y : Nat) (hbx : bx < b.width) (hby : b_y < b.height)
    (hblock : ∀ x, x < b.width → ∀ y, y < b.height →
      (curAtD b x y = CellState.Alive ↔
        ((x + b.width - bx) % b.width < 2 ∧ (y + b.height - b_y) % b.height < 2))) :
    ∃ b', b.compute_one_step = some b' ∧ b'.width = b.width ∧ b'.height = b.height ∧
      ∀ x, x < b.width → ∀ y, y < b.height →
        (curAtD b' x y = CellState.Alive ↔
          ((x + b.width - bx) % b.width < 2 ∧ (y + b.height - b_y) % b.height < 2)) := by
  have hw : 0 < b.width := by omega
  have hh : 0 < b.height := by omega
  obtain ⟨b', h1, h2, h3, h4, h5⟩ := step_formula b hw hh hw15 hh15 hlen
  refine ⟨b', h1, h2, h3, ?_⟩
  intro x hx y hy
  have hcell : b'.cells.getD (b.width * y + x) Cell.cellDefault =
      ⟨lifeRule (curAtD b x y) (specCount b x y), curAtD b x y⟩ := by
    rw [List.getD_eq_getElem?_getD, ← List.get?_eq_getElem?, h5 x y hx hy]
    rfl
  have hcur : curAtD b' x y = lifeRule (curAtD b x y) (specCount b x y) := by
    unfold curAtD
    rw [h2, hcell]
    rfl
  rw [hcur]
  obtain ⟨hc3, hc2⟩ := specCount_block b hw4 hh4 bx b_y hbx hby hblock x y
  by_cases hin : (x + b.width - bx) % b.width < 2 ∧ (y + b.height - b_y) % b.height < 2
  · have hal : curAtD b x y = CellState.Alive := (hblock x hx y hy).mpr hin
    rw [hal, hc3 hin]
    exact iff_of_true rfl hin
  · have hnal : curAtD b x y ≠ CellState.Alive := fun hal =>
      hin ((hblock x hx y hy).mp hal)
    refine iff_of_false ?_ hin
    cases hcs : curAtD b x y with
    | Alive => exact absurd hcs hnal
    | Dead a =>
      have hcnt : specCount b x y ≠ 3 := by
        have := hc2 hin
        omega
      exact lifeRule_dead_not_alive a (specCount b x y) hcnt

/-- A concrete 4×4 board holding a 2×2 block of `Alive` cells anchored
at `(1, 1)`, every other cell long dead. -/
def blockBoard : Board :=
  ⟨(List.range 16).map (fun i =>
    if (i % 4 + 4 - 1) % 4 < 2 ∧ (i / 4 + 4 - 1) % 4 < 2
    then ⟨CellState.Alive, CellState.stateDefault⟩
    else ⟨CellState.Dead 255, CellState.stateDefault⟩), 4, 4⟩

/-- Witness for `still_life_block` on the concrete 4×4 block board. -/
theorem still_life_block_witness :
    ∃ b', blockBoard.compute_one_step = some b' ∧ b'.width = blockBoard.width ∧
      b'.height = blockBoard.height ∧
      ∀ x, x < blockBoard.width → ∀ y, y < blockBoard.height →
        (curAtD b' x y = CellState.Alive ↔
          ((x + blockBoard.width - 1) % blockBoard.width < 2 ∧
           (y + blockBoard.height - 1) % blockBoard.height < 2)) :=
  still_life_block blockBoard (by decide) (by decide) (by decide) (by decide) (by decide)
    1 1 (by decide) (by decide) (by decide)

section Renderer

/-- The command the render loop emits for the cell at `(x, y)`: `none`
when the diff check `current == next` suppresses output, otherwise one
positioning-plus-color command.  Pure restatement of the loop body,
proven to describe `renderCommands` below. -/
def renderCell (b : Board) (p : Nat × Nat) : Option TermCmd :=
  let cell := b.cells.getD (b.width * p.2 + p.1) Cell.cellDefault
  if cell.current = cell.next then none
  else some ⟨p.1 + 1, p.2 + 1, (cellColor cell.current).1, (cellColor cell.current).2.1,
    (cellColor cell.current).2.2⟩

theorem mem_renderPositions {w h : Nat} {p : Nat × Nat} :
    p ∈ renderPositions w h ↔ p.1 < w ∧ p.2 < h := by
  obtain ⟨a, c⟩ := p
  simp only [renderPositions, List.mem_flatMap, List.mem_map, List.mem_range, Prod.mk.injEq]
  constructor
  · rintro ⟨y, hy, x, hx, rfl, rfl⟩
    exact ⟨hx, hy⟩
  · rintro ⟨ha, hc⟩
    exact ⟨c, hc, a, ha, rfl, rfl⟩

theorem render_foldlM (b : Board)
    (hlen : b.cells.length = b.width * b.height)
    (hw : 0 < b.width) (hh : 0 < b.height)
    (hw15 : b.width < 2 ^ 15) (hh15 : b.height < 2 ^ 15) :
    ∀ (L : List (Nat × Nat)), (∀ p ∈ L, p.1 < b.width ∧ p.2 < b.height) →
    ∀ acc : List TermCmd,
    L.foldlM (fun acc p => do
        let cell ← b.cells.get? (b.index_by_position ((p.1 : Nat) : Int) ((p.2 : Nat) : Int))
        if cell.current = cell.next then pure acc
        else do
          let cell2 ← b.cells.get? (b.index_by_position ((p.1 : Nat) : Int) ((p.2 : Nat) : Int))
          let c := cellColor cell2.current
          pure (acc ++ [⟨p.1 + 1, p.2 + 1, c.1, c.2.1, c.2.2⟩])) acc =
      some (acc ++ L.filterMap (renderCell b)) := by
  intro L
  induction L with
  | nil =>
    intro _ acc
    simp [List.foldlM_nil, List.filterMap_nil]
  | cons p L ih =>
    intro hL acc
    have hp := hL p (List.mem_cons_self p L)
    have hplt : b.width * p.2 + p.1 < b.cells.length := by
      rw [hlen]; exact rowMajor_lt b hp.1 hp.2
    rw [List.foldlM_cons, index_center b hw hh hw15 hh15 hp.1 hp.2, get?_eq_getD hplt]
    simp only [Option.bind_eq_bind, Option.some_bind]
    by_cases hc : (b.cells.getD (b.width * p.2 + p.1) Cell.cellDefault).current =
        (b.cells.getD (b.width * p.2 + p.1) Cell.cellDefault).next
    · rw [if_pos hc]
      simp only [Option.pure_def, Option.some_bind]
      have ih' := ih (fun q hq => hL q (List.mem_cons_of_mem p hq)) acc
      simp only [Option.bind_eq_bind, Option.pure_def] at ih'
      rw [ih']
      congr 1
      rw [List.filterMap_cons]
      have : renderCell b p = none := by
        unfold renderCell
        simp only
        rw [if_pos hc]
      rw [this]
    · rw [if_neg hc]
      simp only [Option.pure_def, Option.some_bind]
      have ih' := ih (fun q hq => hL q (List.mem_cons_of_mem p hq))
        (acc ++ [⟨p.1 + 1, p.2 + 1,
          (cellColor (b.cells.getD (b.width * p.2 + p.1) Cell.cellDefault).current).1,
          (cellColor (b.cells.getD (b.width * p.2 + p.1) Cell.cellDefault).current).2.1,
          (cellColor (b.cells.getD (b.width * p.2 + p.1) Cell.cellDefault).current).2.2⟩])
      simp only [Option.bind_eq_bind, Option.pure_def] at ih'
      rw [ih']
      congr 1
      rw [List.filterMap_cons]
      have : renderCell b p =
          some ⟨p.1 + 1, p.2 + 1,
            (cellColor (b.cells.getD (b.width * p.2 + p.1) Cell.cellDefault).current).1,
            (cellColor (b.cells.getD (b.width * p.2 + p.1) Cell.cellDefault).current).2.1,
            (cellColor (b.cells.getD (b.width * p.2 + p.1) Cell.cellDefault).current).2.2⟩ := by
        unfold renderCell
        simp only
        rw [if_neg hc]
      rw [this]
      simp [List.append_assoc]

theorem renderCommands_eq (b : Board)
    (hlen : b.cells.length = b.width * b.height)
    (hw : 0 < b.width) (hh : 0 < b.height)
    (hw15 : b.width < 2 ^ 15) (hh15 : b.height < 2 ^ 15) :
    b.renderCommands =
      some ((renderPositions b.width b.height).filterMap (renderCell b)) := by
  have main := render_foldlM b hlen hw hh hw15 hh15 (renderPositions b.width b.height)
    (fun p hp => mem_renderPositions.mp hp) []
  rw [List.nil_append] at main
  exact main

end Renderer

/-- C6: on a well-shaped board in which every cell satisfies
`current == next`, the rendering diff loop emits zero commands;
conversely, a positioning command is emitted at terminal coordinates
`(x+1, y+1)` exactly when the cell at `(x, y)` has `current ≠ next`. -/
theorem render_diff_suppression (b : Board)
    (hlen : b.cells.length = b.width * b.height)
    (hw : 0 < b.width) (hh : 0 < b.height)
    (hw15 : b.width < 2 ^ 15) (hh15 : b.height < 2 ^ 15) :
    ∃ L, b.renderCommands = some L ∧
      ((∀ c ∈ b.cells, c.current = c.next) → L = []) ∧
      (∀ x, x < b.width → ∀ y, y < b.height →
        ((∃ cmd ∈ L, cmd.col = x + 1 ∧ cmd.row = y + 1) ↔
          (b.cells.getD (b.width * y + x) Cell.cellDefault).current ≠
            (b.cells.getD (b.width * y + x) Cell.cellDefault).next)) := by
  refine ⟨_, renderCommands_eq b hlen hw hh hw15 hh15, ?_, ?_⟩
  · intro hall
    rw [List.filterMap_eq_nil]
    intro p hp
    obtain ⟨hp1, hp2⟩ := mem_renderPositions.mp hp
    unfold renderCell
    simp only
    rw [if_pos (hall _ (getD_mem (by rw [hlen]; exact rowMajor_lt b hp1 hp2)))]
  · intro x hx y hy
    constructor
    · rintro ⟨cmd, hcmd, hcol, hrow⟩
      obtain ⟨p, hp, hpe⟩ := List.mem_filterMap.mp hcmd
      unfold renderCell at hpe
      simp only at hpe
      by_cases hc : (b.cells.getD (b.width * p.2 + p.1) Cell.cellDefault).current =
          (b.cells.getD (b.width * p.2 + p.1) Cell.cellDefault).next
      · rw [if_pos hc] at hpe
        cases hpe
      · rw [if_neg hc] at hpe
        have hcmd2 := Option.some.inj hpe
        have hpx : p.1 = x := by
          have : cmd.col = p.1 + 1 := by rw [← hcmd2]
          omega
        have hpy : p.2 = y := by
          have : cmd.row = p.2 + 1 := by rw [← hcmd2]
          omega
        rw [hpx, hpy] at hc
        exact hc
    · intro hne
      refine ⟨⟨x + 1, y + 1,
        (cellColor (b.cells.getD (b.width * y + x) Cell.cellDefault).current).1,
        (cellColor (b.cells.getD (b.width * y + x) Cell.cellDefault).current).2.1,
        (cellColor (b.cells.getD (b.width * y + x) Cell.cellDefault).current).2.2⟩,
        ?_, rfl, rfl⟩
      apply List.mem_filterMap.mpr
      refine ⟨(x, y), mem_renderPositions.mpr ⟨hx, hy⟩, ?_⟩
      unfold renderCell
      simp only
      rw [if_neg hne]

/-- Witness for `render_diff_suppression` on a fresh 2×2 board (every
cell has `current = next = Dead(255)`, so no command is emitted). -/
theorem render_diff_suppression_witness :
    ∃ L, (Board.from_shape 2 2).renderCommands = some L ∧
      ((∀ c ∈ (Board.from_shape 2 2).cells, c.current = c.next) → L = []) ∧
      (∀ x, x < (Board.from_shape 2 2).width → ∀ y, y < (Board.from_shape 2 2).height →
        ((∃ cmd ∈ L, cmd.col = x + 1 ∧ cmd.row = y + 1) ↔
          ((Board.from_shape 2 2).cells.getD ((Board.from_shape 2 2).width * y + x)
            Cell.cellDefault).current ≠
          ((Board.from_shape 2 2).cells.getD ((Board.from_shape 2 2).width * y + x)
            Cell.cellDefault).next)) :=
  render_diff_suppression (Board.from_shape 2 2) (by decide) (by decide) (by decide)
    (by decide) (by decide)

section NoDeadZero

theorem lifeRule_pos_age (cur : CellState) (cnt : Nat) :
    ∀ a, lifeRule cur cnt = CellState.Dead a → 1 ≤ a := by
  intro a hrule
  cases cur with
  | Alive =>
    rcases cnt with _ | _ | _ | _ | n <;> simp [lifeRule] at hrule <;> omega
  | Dead cyc =>
    simp only [lifeRule] at hrule
    split_ifs at hrule
    cases hrule
    split <;> omega

theorem step_nodeadzero (b : Board) (hb : ShapeOK b)
    (hcur : ∀ c ∈ b.cells, ∀ a, c.current = CellState.Dead a → 1 ≤ a) :
    ∀ b', b.compute_one_step = some b' → ShapeOK b' ∧
      ∀ c ∈ b'.cells, (∀ a, c.current = CellState.Dead a → 1 ≤ a) ∧
        (∀ a, c.next = CellState.Dead a → 1 ≤ a) := by
  intro b' hstep
  obtain ⟨hw, hh, hw15, hh15, hlen⟩ := hb
  obtain ⟨b'', h1, h2, h3, h4, h5⟩ := step_formula b hw hh hw15 hh15 hlen
  have hbe : b' = b'' := by
    rw [hstep] at h1
    exact Option.some.inj h1
  subst hbe
  refine ⟨⟨by rw [h2]; exact hw, by rw [h3]; exact hh, by rw [h2]; exact hw15,
    by rw [h3]; exact hh15, by rw [h4, h2, h3]; exact hlen⟩, ?_⟩
  intro c hc
  obtain ⟨n, hn⟩ := List.mem_iff_get?.mp hc
  have hnlt : n < b.cells.length := by
    obtain ⟨hlt', -⟩ := List.get?_eq_some.mp hn
    omega
  have hx : n % b.width < b.width := Nat.mod_lt _ hw
  have hy : n / b.width < b.height := by
    rw [Nat.div_lt_iff_lt_mul hw]
    rw [hlen] at hnlt
    calc n < b.width * b.height := hnlt
      _ = b.height * b.width := Nat.mul_comm _ _
  have hdecomp : b.width * (n / b.width) + n % b.width = n := Nat.div_add_mod n b.width
  have hcell := h5 (n % b.width) (n / b.width) hx hy
  rw [hdecomp, hn] at hcell
  have hc' := Option.some.inj hcell
  constructor
  · intro a ha
    rw [hc'] at ha
    exact lifeRule_pos_age _ _ a ha
  · intro a ha
    rw [hc'] at ha
    exact hcur _ (getD_mem (by rw [← hdecomp] at hnlt; exact hnlt)) a ha

theorem randomize_from_shape_pos (w h : Nat) (p : ℚ) (g : RandomGen) :
    ∀ c ∈ ((Board.from_shape w h).randomize p g).cells,
      (∀ a, c.current = CellState.Dead a → 1 ≤ a) ∧
      (∀ a, c.next = CellState.Dead a → 1 ≤ a) := by
  intro c hc
  obtain ⟨c₀, hc₀, hor⟩ := randomizeGo_mem p g.sample 0 _ c hc
  have hdef : c₀ = Cell.cellDefault := List.eq_of_mem_replicate hc₀
  subst hdef
  rcases hor with rfl | rfl
  · constructor
    · intro a ha
      have : (255 : Nat) = a := CellState.Dead.inj ha
      omega
    · intro a ha
      have : (255 : Nat) = a := CellState.Dead.inj ha
      omega
  · constructor
    · intro a ha
      cases ha
    · intro a ha
      have : (255 : Nat) = a := CellState.Dead.inj ha
      omega

end NoDeadZero

/-- C10: in every board reachable from `from_shape` followed by
`randomize` and any number of `compute_one_step` calls, no cell's
`current` or `next` is ever `Dead(0)`: freshly dead cells start at age 1
and ages only increment or saturate. -/
theorem no_dead_zero_reachable (w h : Nat)
    (hw : 0 < w) (hh : 0 < h) (hw15 : w < 2 ^ 15) (hh15 : h < 2 ^ 15)
    (p : ℚ) (g : RandomGen) :
    ∀ n b', stepN n ((Board.from_shape w h).randomize p g) = some b' →
      ∀ c ∈ b'.cells, c.current ≠ CellState.Dead 0 ∧ c.next ≠ CellState.Dead 0 := by
  have main : ∀ n (b : Board), ShapeOK b →
      (∀ c ∈ b.cells, (∀ a, c.current = CellState.Dead a → 1 ≤ a) ∧
        (∀ a, c.next = CellState.Dead a → 1 ≤ a)) →
      ∀ b', stepN n b = some b' →
        ∀ c ∈ b'.cells, (∀ a, c.current = CellState.Dead a → 1 ≤ a) ∧
          (∀ a, c.next = CellState.Dead a → 1 ≤ a) := by
    intro n
    induction n with
    | zero =>
      intro b hsh hnz b' hb'
      have : b = b' := Option.some.inj hb'
      subst this
      exact hnz
    | succ n ih =>
      intro b hsh hnz b' hb'
      show _
      have hb'2 : b.compute_one_step >>= stepN n = some b' := hb'
      cases hco : b.compute_one_step with
      | none => rw [hco] at hb'2; cases hb'2
      | some b₁ =>
        rw [hco] at hb'2
        obtain ⟨hsh₁, hnz₁⟩ := step_nodeadzero b hsh (fun c hc => (hnz c hc).1) b₁ hco
        exact ih b₁ hsh₁ hnz₁ b' hb'2
  intro n b' hb' c hc
  have hsh : ShapeOK ((Board.from_shape w h).randomize p g) := by
    refine ⟨hw, hh, hw15, hh15, ?_⟩
    show (randomizeGo p g.sample 0 _).length = _
    rw [randomizeGo_length]
    simp only [Board.from_shape, List.length_replicate]
    rfl
  have := main n _ hsh (randomize_from_shape_pos w h p g) b' hb' c hc
  exact ⟨fun habs => absurd (this.1 0 habs) (by omega),
         fun habs => absurd (this.2 0 habs) (by omega)⟩

/-- The concrete board reached from a fresh 2×2 board (probability 0)
after one step: every cell still `⟨Dead 255, Dead 255⟩`. -/
def allDeadStepped : Board :=
  ⟨[⟨CellState.Dead 255, CellState.Dead 255⟩, ⟨CellState.Dead 255, CellState.Dead 255⟩,
    ⟨CellState.Dead 255, CellState.Dead 255⟩, ⟨CellState.Dead 255, CellState.Dead 255⟩], 2, 2⟩

/-- Witness for `no_dead_zero_reachable`: one step on a 2×2 board seeded
with probability 0, evaluated concretely. -/
theorem no_dead_zero_reachable_witness :
    (⟨CellState.Dead 255, CellState.Dead 255⟩ : Cell).current ≠ CellState.Dead 0 ∧
    (⟨CellState.Dead 255, CellState.Dead 255⟩ : Cell).next ≠ CellState.Dead 0 :=
  no_dead_zero_reachable 2 2 (by decide) (by decide) (by decide) (by decide) 0 zeroGen
    1 allDeadStepped (by decide) ⟨CellState.Dead 255, CellState.Dead 255⟩ (by decide)

/-- Witness for `randomize_extreme_probabilities` on a 2×3 board with
the constant-`1/2` generator. -/
theorem randomize_extreme_probabilities_witness :
    (∀ c ∈ ((Board.from_shape 2 3).randomize 0 halfGen).cells,
        c.current = CellState.Dead 255) ∧
    (∀ c ∈ ((Board.from_shape 2 3).randomize 1 halfGen).cells,
        c.current = CellState.Alive) :=
  randomize_extreme_probabilities 2 3 halfGen
    (fun _ => ⟨by norm_num [halfGen], by norm_num [halfGen]⟩)

end GolRs
